import Mathlib

/-!
# Verification of `src/prrmutations.cpp`

The repository exposes two Rcpp functions:

* `permutations(int n)` — builds every permutation of `1..n`:
  an outer loop pushes `i = 1, .., n` onto a working vector `v`; a do-while
  loop advances `v` with `std::next_permutation`, recording a copy of `v`
  into `data` only when `i == n`, and calling `Rcpp::checkUserInterrupt()`
  once per inner iteration (the interrupt call is *not* under the `if`,
  despite the indentation).  Afterwards a `NumericMatrix` of shape
  `data.size() × data[0].size()` is filled from `data` — reading `data[0]`
  of an empty vector (the `n <= 0` case) is undefined behaviour.
* `maxC(std::vector<float> v)` — returns `*std::max_element(v.begin(), v.end())`;
  dereferencing the end iterator on an empty vector is undefined behaviour.

Modelling conventions:
* C++ `int` values are modelled as `Int` (no arithmetic in the program can
  overflow 32 bits for inputs whose output fits in memory); the final
  conversion of the recorded `int`s to the `double` entries of the
  `NumericMatrix` is exact for the magnitudes involved, so the grid is kept
  as `List (List Int)`.
* `float` values are modelled as `ℚ`: `maxC` performs no arithmetic, only
  `<` comparisons and copies, and IEEE comparison of (non-NaN) floats agrees
  with the ordering of the rational values they denote.
* out-of-bounds accesses / iterator dereferences (C++ undefined behaviour)
  are modelled as an explicit `ErrKind.outOfBounds` outcome, distinct from
  the spec's taxonomy `invalidArgument / resourceExhausted / cancelled`.
* `Rcpp::checkUserInterrupt` is modelled by an oracle `intr : Nat → Bool`
  giving the interrupt status at the k-th check; when it fires the C++
  exception unwinds without returning a grid, modelled as `.error .cancelled`.
* loops are modelled as structurally recursive functions on an explicit
  bound; the bounds used by the top-level wrappers are proved sufficient
  (the do-while loop strictly increases the working vector in lexicographic
  order, so it makes at most `rank v` further steps).
-/

/-- Outcome kinds: the spec's error taxonomy (`invalidArgument`,
`resourceExhausted`, `cancelled`) plus `outOfBounds`, which marks the points
where the C++ source performs an out-of-bounds access, i.e. undefined
behaviour. -/
inductive ErrKind where
  | invalidArgument
  | resourceExhausted
  | cancelled
  | outOfBounds
deriving DecidableEq, Repr

/-- Lexicographic strict comparison of integer sequences, as performed by
`operator<` on `std::vector` (compare the first differing element; a proper
prefix is smaller). -/
def lexLtB : List Int → List Int → Bool
  | [], [] => false
  | [], _ :: _ => true
  | _ :: _, [] => false
  | x :: xs, y :: ys => if x < y then true else if y < x then false else lexLtB xs ys

theorem lexLtB_cons_cons {x y : Int} {xs ys : List Int} :
    lexLtB (x :: xs) (y :: ys) = true ↔ x < y ∨ (x = y ∧ lexLtB xs ys = true) := by
  by_cases h1 : x < y
  · simp [lexLtB, h1]
  · by_cases h2 : y < x
    · simp [lexLtB, h1, h2]
      omega
    · have hxy : x = y := le_antisymm (not_lt.mp h2) (not_lt.mp h1)
      simp [lexLtB, h1, h2, hxy]

theorem lexLtB_irrefl : ∀ l : List Int, lexLtB l l = false
  | [] => rfl
  | x :: xs => by simp [lexLtB, lexLtB_irrefl xs]

theorem lexLtB_trans : ∀ {a b c : List Int},
    lexLtB a b = true → lexLtB b c = true → lexLtB a c = true
  | [], _ :: _, _ :: _, _, _ => rfl
  | x :: xs, y :: ys, z :: zs, hab, hbc => by
    rcases lexLtB_cons_cons.mp hab with h1 | ⟨h1, h1'⟩ <;>
      rcases lexLtB_cons_cons.mp hbc with h2 | ⟨h2, h2'⟩ <;>
      refine lexLtB_cons_cons.mpr ?_
    · exact Or.inl (h1.trans h2)
    · exact Or.inl (h2 ▸ h1)
    · exact Or.inl (h1 ▸ h2)
    · exact Or.inr ⟨h1.trans h2, lexLtB_trans h1' h2'⟩

theorem lexLtB_total : ∀ {a b : List Int},
    lexLtB a b = false → lexLtB b a = false → a = b
  | [], [], _, _ => rfl
  | [], _ :: _, h, _ => by simp [lexLtB] at h
  | _ :: _, [], _, h => by simp [lexLtB] at h
  | x :: xs, y :: ys, hab, hba => by
    have h1 : ¬ x < y := fun h => by simp [lexLtB, h] at hab
    have h2 : ¬ y < x := fun h => by simp [lexLtB, h] at hba
    have hxy : x = y := le_antisymm (not_lt.mp h2) (not_lt.mp h1)
    subst hxy
    simp only [lexLtB, lt_irrefl, if_false] at hab hba
    exact congrArg (x :: ·) (lexLtB_total hab hba)

theorem lexLtB_asymm {a b : List Int} (h : lexLtB a b = true) : lexLtB b a = false := by
  by_contra hba
  have hba' : lexLtB b a = true := by
    cases hb : lexLtB b a
    · exact absurd hb hba
    · rfl
  have := lexLtB_trans h hba'
  rw [lexLtB_irrefl] at this
  exact Bool.noConfusion this

/-- Helper for `nextPerm`, the pivot/successor search of `std::next_permutation`
on the weakly descending tail `xs`: find the *last* element `y` of `xs` with
`x < y` (the smallest entry of `xs` exceeding `x`, since `xs` is descending),
and return `y` together with `xs` with that occurrence replaced by `x`.
Returns `none` when no element of `xs` exceeds `x`. -/
def pivotSwap (x : Int) : List Int → Option (Int × List Int)
  | [] => none
  | y :: ys =>
    if x < y then
      match pivotSwap x ys with
      | some (z, zs) => some (z, y :: zs)
      | none => some (y, x :: ys)
    else none

/-- Model of `std::next_permutation` on an integer sequence: returns the
lexicographically next permutation of the sequence when one exists, `none`
otherwise (i.e. when the sequence is weakly descending).  This recursive
formulation computes the same result as the index-based standard-library
algorithm: if the tail has a next permutation the head is kept (the pivot of
the standard algorithm lies in the tail), otherwise the tail is weakly
descending, the head is the pivot, and it is swapped with the smallest tail
element exceeding it, after which the tail is reversed (sorted ascending). -/
def nextPerm : List Int → Option (List Int)
  | [] => none
  | x :: xs =>
    match nextPerm xs with
    | some ys => some (x :: ys)
    | none =>
      match pivotSwap x xs with
      | some (y, zs) => some (y :: zs.reverse)
      | none => none

example : nextPerm [1, 2, 3] = some [1, 3, 2] := by decide
example : nextPerm [1, 3, 2] = some [2, 1, 3] := by decide
example : nextPerm [3, 2, 1] = none := by decide
example : nextPerm [2, 2, 1] = none := by decide
example : nextPerm [1, 2, 2] = some [2, 1, 2] := by decide

/-- A weakly descending list: each element is at least every later one. -/
def Desc (l : List Int) : Prop := List.Pairwise (fun a b => b ≤ a) l

theorem pivotSwap_none_iff {x : Int} : ∀ {xs : List Int},
    Desc xs → (pivotSwap x xs = none ↔ ∀ y ∈ xs, y ≤ x)
  | [], _ => by simp [pivotSwap]
  | y :: ys, hd => by
    constructor
    · intro h z hz
      have hxy : ¬ x < y := by
        intro hlt
        simp only [pivotSwap, if_pos hlt] at h
        cases hps : pivotSwap x ys <;> simp [hps] at h
      rcases List.mem_cons.mp hz with rfl | hz
      · omega
      · have := (List.pairwise_cons.mp hd).1 z hz
        omega
    · intro h
      have hxy : ¬ x < y := by have := h y (by simp); omega
      simp [pivotSwap, hxy]

theorem pivotSwap_some_lt {x y : Int} {zs : List Int} : ∀ {xs : List Int},
    pivotSwap x xs = some (y, zs) → x < y
  | [], h => by simp [pivotSwap] at h
  | w :: ws, h => by
    by_cases hxw : x < w
    · simp only [pivotSwap, if_pos hxw] at h
      cases hps : pivotSwap x ws with
      | some p =>
        obtain ⟨z, zs'⟩ := p
        rw [hps] at h
        simp only [Option.some.injEq, Prod.mk.injEq] at h
        exact h.1 ▸ pivotSwap_some_lt hps
      | none =>
        rw [hps] at h
        simp only [Option.some.injEq, Prod.mk.injEq] at h
        omega
    · simp [pivotSwap, hxw] at h

theorem pivotSwap_some_perm {x y : Int} {zs : List Int} : ∀ {xs : List Int},
    pivotSwap x xs = some (y, zs) → (y :: zs).Perm (x :: xs)
  | [], h => by simp [pivotSwap] at h
  | w :: ws, h => by
    by_cases hxw : x < w
    · simp only [pivotSwap, if_pos hxw] at h
      cases hps : pivotSwap x ws with
      | some p =>
        obtain ⟨z, zs'⟩ := p
        rw [hps] at h
        simp only [Option.some.injEq, Prod.mk.injEq] at h
        rw [← h.1, ← h.2]
        have h1 : (z :: w :: zs').Perm (w :: z :: zs') := List.Perm.swap w z zs'
        have h2 : (w :: z :: zs').Perm (w :: x :: ws) := (pivotSwap_some_perm hps).cons w
        have h3 : (w :: x :: ws).Perm (x :: w :: ws) := List.Perm.swap x w ws
        exact (h1.trans h2).trans h3
      | none =>
        rw [hps] at h
        simp only [Option.some.injEq, Prod.mk.injEq] at h
        rw [← h.1, ← h.2]
        exact List.Perm.swap x w ws
    · simp [pivotSwap, hxw] at h

theorem pivotSwap_some_desc {x y : Int} {zs : List Int} : ∀ {xs : List Int},
    Desc xs → pivotSwap x xs = some (y, zs) → Desc zs
  | [], _, h => by simp [pivotSwap] at h
  | w :: ws, hd, h => by
    by_cases hxw : x < w
    · simp only [pivotSwap, if_pos hxw] at h
      obtain ⟨hw, hws⟩ := List.pairwise_cons.mp hd
      cases hps : pivotSwap x ws with
      | some p =>
        obtain ⟨z, zs'⟩ := p
        rw [hps] at h
        simp only [Option.some.injEq, Prod.mk.injEq] at h
        rw [← h.2]
        refine List.pairwise_cons.mpr ⟨fun e he => ?_, pivotSwap_some_desc hws hps⟩
        have hmem : e ∈ z :: zs' := List.mem_cons_of_mem z he
        have : e ∈ x :: ws := (pivotSwap_some_perm hps).mem_iff.mp hmem
        rcases List.mem_cons.mp this with rfl | hews
        · omega
        · exact hw e hews
      | none =>
        rw [hps] at h
        simp only [Option.some.injEq, Prod.mk.injEq] at h
        rw [← h.2]
        refine List.pairwise_cons.mpr ⟨fun e he => ?_, hws⟩
        exact (pivotSwap_none_iff hws).mp hps e he
    · simp [pivotSwap, hxw] at h

theorem pivotSwap_some_min {x y : Int} {zs : List Int} : ∀ {xs : List Int},
    Desc xs → pivotSwap x xs = some (y, zs) → ∀ e ∈ xs, x < e → y ≤ e
  | [], _, h => by simp [pivotSwap] at h
  | w :: ws, hd, h => by
    by_cases hxw : x < w
    · simp only [pivotSwap, if_pos hxw] at h
      obtain ⟨hw, hws⟩ := List.pairwise_cons.mp hd
      cases hps : pivotSwap x ws with
      | some p =>
        obtain ⟨z, zs'⟩ := p
        rw [hps] at h
        simp only [Option.some.injEq, Prod.mk.injEq] at h
        intro e he hxe
        rw [← h.1]
        rcases List.mem_cons.mp he with rfl | hews
        · -- e is the head w; the deeper pivot z lies in ws, so z ≤ w
          have hz : z ∈ x :: ws := (pivotSwap_some_perm hps).mem_iff.mp (by simp)
          have hxz : x < z := pivotSwap_some_lt hps
          rcases List.mem_cons.mp hz with rfl | hzws
          · omega
          · exact hw z hzws
        · exact pivotSwap_some_min hws hps e hews hxe
      | none =>
        rw [hps] at h
        simp only [Option.some.injEq, Prod.mk.injEq] at h
        intro e he hxe
        rw [← h.1]
        rcases List.mem_cons.mp he with rfl | hews
        · omega
        · exact absurd hxe (by have := (pivotSwap_none_iff hws).mp hps e hews; omega)
    · simp [pivotSwap, hxw] at h

theorem nextPerm_none_iff : ∀ {l : List Int}, nextPerm l = none ↔ Desc l
  | [] => by simp [nextPerm, Desc]
  | x :: xs => by
    constructor
    · intro h
      cases hns : nextPerm xs with
      | some ys => simp [nextPerm, hns] at h
      | none =>
        cases hps : pivotSwap x xs with
        | some p => obtain ⟨y, zs⟩ := p; simp [nextPerm, hns, hps] at h
        | none =>
          have hdxs : Desc xs := nextPerm_none_iff.mp hns
          exact List.pairwise_cons.mpr ⟨(pivotSwap_none_iff hdxs).mp hps, hdxs⟩
    · intro h
      obtain ⟨hx, hxs⟩ := List.pairwise_cons.mp h
      have hns : nextPerm xs = none := nextPerm_none_iff.mpr hxs
      have hps : pivotSwap x xs = none := (pivotSwap_none_iff hxs).mpr hx
      simp [nextPerm, hns, hps]

theorem nextPerm_some_perm : ∀ {l l' : List Int}, nextPerm l = some l' → l'.Perm l
  | [], _, h => by simp [nextPerm] at h
  | x :: xs, l', h => by
    cases hns : nextPerm xs with
    | some ys =>
      simp only [nextPerm, hns] at h
      injection h with h2
      subst h2
      exact (nextPerm_some_perm hns).cons x
    | none =>
      cases hps : pivotSwap x xs with
      | some p =>
        obtain ⟨y, zs⟩ := p
        simp only [nextPerm, hns, hps] at h
        injection h with h2
        subst h2
        exact (((zs.reverse_perm).cons y).trans (pivotSwap_some_perm hps))
      | none => simp [nextPerm, hns, hps] at h

theorem nextPerm_some_lt : ∀ {l l' : List Int}, nextPerm l = some l' → lexLtB l l' = true
  | [], _, h => by simp [nextPerm] at h
  | x :: xs, l', h => by
    cases hns : nextPerm xs with
    | some ys =>
      simp only [nextPerm, hns] at h
      injection h with h2
      subst h2
      exact lexLtB_cons_cons.mpr (Or.inr ⟨rfl, nextPerm_some_lt hns⟩)
    | none =>
      cases hps : pivotSwap x xs with
      | some p =>
        obtain ⟨y, zs⟩ := p
        simp only [nextPerm, hns, hps] at h
        injection h with h2
        subst h2
        exact lexLtB_cons_cons.mpr (Or.inl (pivotSwap_some_lt hps))
      | none => simp [nextPerm, hns, hps] at h

/-- A weakly descending list is lexicographically maximal among the
rearrangements of its elements. -/
theorem desc_lex_max : ∀ {l : List Int}, Desc l → ∀ {c : List Int}, c.Perm l → lexLtB l c = false
  | [], _, c, hp => by rw [hp.eq_nil]; rfl
  | a :: l', hd, [], hp => absurd hp.symm (by simp)
  | a :: l', hd, b :: c', hp => by
    have hb : b ∈ a :: l' := hp.mem_iff.mp (by simp)
    have hba : b ≤ a := by
      rcases List.mem_cons.mp hb with rfl | hb'
      · exact le_refl b
      · exact (List.pairwise_cons.mp hd).1 b hb'
    cases hlex : lexLtB (a :: l') (b :: c') with
    | false => rfl
    | true =>
      exfalso
      rcases lexLtB_cons_cons.mp hlex with h | ⟨h, h'⟩
      · omega
      · subst h
        have hcl : c'.Perm l' := hp.cons_inv
        rw [desc_lex_max (List.pairwise_cons.mp hd).2 hcl] at h'
        exact Bool.noConfusion h'

/-- A weakly ascending list is lexicographically minimal among the
rearrangements of its elements. -/
theorem asc_lex_min : ∀ {l : List Int}, List.Pairwise (· ≤ ·) l →
    ∀ {c : List Int}, c.Perm l → lexLtB c l = false
  | [], _, c, hp => by rw [hp.eq_nil]; rfl
  | a :: l', ha, [], hp => absurd hp.symm (by simp)
  | a :: l', ha, b :: c', hp => by
    have hb : b ∈ a :: l' := hp.mem_iff.mp (by simp)
    have hab : a ≤ b := by
      rcases List.mem_cons.mp hb with rfl | hb'
      · exact le_refl b
      · exact (List.pairwise_cons.mp ha).1 b hb'
    cases hlex : lexLtB (b :: c') (a :: l') with
    | false => rfl
    | true =>
      exfalso
      rcases lexLtB_cons_cons.mp hlex with h | ⟨h, h'⟩
      · omega
      · subst h
        have hcl : c'.Perm l' := hp.cons_inv
        rw [asc_lex_min (List.pairwise_cons.mp ha).2 hcl] at h'
        exact Bool.noConfusion h'

/-- `nextPerm` is the *least* rearrangement lexicographically above its input:
no rearrangement `c` strictly above `l` lies strictly below `nextPerm l`. -/
theorem nextPerm_min : ∀ {l l' : List Int}, nextPerm l = some l' →
    ∀ {c : List Int}, c.Perm l → lexLtB l c = true → lexLtB c l' = false
  | [], _, h, _, _, _ => by simp [nextPerm] at h
  | x :: xs, l', h, c, hcp, hlc => by
    obtain ⟨b, cs, rfl⟩ : ∃ b cs, c = b :: cs := by
      cases c with
      | nil => exact absurd hcp.symm (by simp)
      | cons b cs => exact ⟨b, cs, rfl⟩
    cases hns : nextPerm xs with
    | some ys =>
      simp only [nextPerm, hns] at h
      injection h with h2
      subst h2
      rcases lexLtB_cons_cons.mp hlc with h1 | ⟨h1, h1'⟩
      · cases hg : lexLtB (b :: cs) (x :: ys) with
        | false => rfl
        | true =>
          exfalso
          rcases lexLtB_cons_cons.mp hg with h2 | ⟨h2, _⟩
          · omega
          · omega
      · subst h1
        have hcsxs : cs.Perm xs := hcp.cons_inv
        have ih : lexLtB cs ys = false := nextPerm_min hns hcsxs h1'
        simp [lexLtB, ih]
    | none =>
      cases hps : pivotSwap x xs with
      | none => simp [nextPerm, hns, hps] at h
      | some p =>
        obtain ⟨y, zs⟩ := p
        simp only [nextPerm, hns, hps] at h
        injection h with h2
        subst h2
        have hdxs : Desc xs := nextPerm_none_iff.mp hns
        rcases lexLtB_cons_cons.mp hlc with h1 | ⟨h1, h1'⟩
        · -- the head strictly increased: b exceeds x, so y ≤ b by minimality
          have hbmem : b ∈ x :: xs := hcp.mem_iff.mp (by simp)
          have hbxs : b ∈ xs := by
            rcases List.mem_cons.mp hbmem with rfl | hb'
            · omega
            · exact hb'
          have hyb : y ≤ b := pivotSwap_some_min hdxs hps b hbxs h1
          cases hg : lexLtB (b :: cs) (y :: zs.reverse) with
          | false => rfl
          | true =>
            exfalso
            rcases lexLtB_cons_cons.mp hg with h2 | ⟨h2, h2'⟩
            · omega
            · -- b = y: then cs rearranges zs.reverse, which is sorted ascending
              subst h2
              have hcszs : cs.Perm zs := by
                have h3 : (b :: cs).Perm (b :: zs) :=
                  hcp.trans (pivotSwap_some_perm hps).symm
                exact h3.cons_inv
              have hasc : List.Pairwise (· ≤ ·) zs.reverse := by
                rw [List.pairwise_reverse]
                exact pivotSwap_some_desc hdxs hps
              rw [asc_lex_min hasc (hcszs.trans zs.reverse_perm.symm)] at h2'
              exact Bool.noConfusion h2'
        · -- equal heads: the tail xs is weakly descending, hence lex-maximal,
          -- contradicting that cs rearranges xs strictly above it
          subst h1
          have hcsxs : cs.Perm xs := hcp.cons_inv
          rw [desc_lex_max hdxs hcsxs] at h1'
          exact Bool.noConfusion h1'

theorem countP_lt_of_mem {α : Type} {p q : α → Bool} :
    ∀ {l : List α} {a : α}, a ∈ l → p a = false → q a = true →
      (∀ b ∈ l, p b = true → q b = true) → l.countP p < l.countP q
  | [], a, ha, _, _, _ => absurd ha (by simp)
  | x :: t, a, ha, hpa, hqa, himp => by
    rcases List.mem_cons.mp ha with rfl | ha'
    · have hmono : t.countP p ≤ t.countP q :=
        List.countP_mono_left fun b hb hpb => himp b (List.mem_cons_of_mem _ hb) hpb
      rw [List.countP_cons, List.countP_cons, hpa, hqa]
      simp only [Bool.false_eq_true, if_false, if_true]
      omega
    · have ih : t.countP p < t.countP q :=
        countP_lt_of_mem ha' hpa hqa fun b hb => himp b (List.mem_cons_of_mem _ hb)
      rw [List.countP_cons, List.countP_cons]
      have hx : (if p x = true then 1 else 0) ≤ (if q x = true then 1 else 0) := by
        by_cases hpx : p x = true
        · rw [if_pos hpx, if_pos (himp x (by simp) hpx)]
        · rw [if_neg hpx]
          omega
      omega

/-- Number of rearrangements of `v` lying strictly above `v` in lexicographic
order.  Each `next_permutation` step strictly increases the sequence within a
fixed multiset, so this quantity strictly decreases along the do-while loop
and bounds the number of remaining iterations. -/
def rank (v : List Int) : Nat := v.permutations'.countP fun c => lexLtB v c

theorem rank_next_lt {v v' : List Int} (h : nextPerm v = some v') : rank v' < rank v := by
  have hperm : v'.Perm v := nextPerm_some_perm h
  have hlt : lexLtB v v' = true := nextPerm_some_lt h
  have hpp : v'.permutations'.Perm v.permutations' := hperm.permutations'
  unfold rank
  rw [hpp.countP_eq]
  exact countP_lt_of_mem (List.mem_permutations'.mpr hperm) (lexLtB_irrefl v') hlt
    fun b _ hb => lexLtB_trans hlt hb

theorem nextPerm_none_of_rank_zero {v : List Int} (h : rank v = 0) : nextPerm v = none := by
  cases hn : nextPerm v with
  | none => rfl
  | some v' => exact absurd (rank_next_lt hn) (by omega)

/-- The sequence of states the do-while loop passes through starting from
working vector `v`: `v` itself, followed by the states produced by the
successive `std::next_permutation` calls that return `true`.  `fuel` bounds
the number of steps; `rank v` is always sufficient (proved below), making
the value of `visitedAux (rank v) v` the true, bound-free trace. -/
def visitedAux : Nat → List Int → List (List Int)
  | 0, v => [v]
  | fuel + 1, v =>
    match nextPerm v with
    | none => [v]
    | some v' => v :: visitedAux fuel v'

/-- The full trace of do-while states starting from `v`. -/
def visited (v : List Int) : List (List Int) := visitedAux (rank v) v

theorem visitedAux_congr : ∀ {f1 : Nat} {v : List Int} {f2 : Nat},
    rank v ≤ f1 → rank v ≤ f2 → visitedAux f1 v = visitedAux f2 v
  | 0, v, f2, h1, _ => by
    have hz : rank v = 0 := Nat.le_zero.mp h1
    have hn : nextPerm v = none := nextPerm_none_of_rank_zero hz
    cases f2 with
    | zero => rfl
    | succ f2' => simp [visitedAux, hn]
  | f1 + 1, v, f2, h1, h2 => by
    cases hn : nextPerm v with
    | none =>
      cases f2 with
      | zero => simp [visitedAux, hn]
      | succ f2' => simp [visitedAux, hn]
    | some v' =>
      have hrv : rank v' < rank v := rank_next_lt hn
      cases f2 with
      | zero =>
        have : rank v = 0 := Nat.le_zero.mp h2
        omega
      | succ f2' =>
        simp only [visitedAux, hn]
        exact congrArg (v :: ·)
          (visitedAux_congr (by omega) (by omega))

theorem visited_none {v : List Int} (h : nextPerm v = none) : visited v = [v] := by
  unfold visited
  cases hr : rank v with
  | zero => rfl
  | succ r => simp [visitedAux, h]

theorem visited_some {v v' : List Int} (h : nextPerm v = some v') :
    visited v = v :: visited v' := by
  have hrv : rank v' < rank v := rank_next_lt h
  unfold visited
  cases hr : rank v with
  | zero => omega
  | succ r =>
    simp only [visitedAux, h]
    exact congrArg (v :: ·) (visitedAux_congr (by omega) le_rfl)

theorem visited_head (v : List Int) : (visited v).head? = some v := by
  cases hn : nextPerm v with
  | none => rw [visited_none hn]; rfl
  | some v' => rw [visited_some hn]; rfl

theorem visited_ne_nil (v : List Int) : visited v ≠ [] := by
  cases hn : nextPerm v with
  | none => rw [visited_none hn]; simp
  | some v' => rw [visited_some hn]; simp

theorem visited_chain_aux : ∀ (r : Nat) (v : List Int), rank v ≤ r →
    List.Chain' (fun a b => lexLtB a b = true) (visited v)
  | 0, v, h => by
    rw [visited_none (nextPerm_none_of_rank_zero (Nat.le_zero.mp h))]
    simp
  | r + 1, v, h => by
    cases hn : nextPerm v with
    | none => rw [visited_none hn]; simp
    | some v' =>
      rw [visited_some hn]
      have hrv : rank v' < rank v := rank_next_lt hn
      refine List.chain'_cons'.mpr ⟨?_, visited_chain_aux r v' (by omega)⟩
      intro b hb
      rw [visited_head v'] at hb
      cases hb
      exact nextPerm_some_lt hn

/-- The do-while loop states are strictly increasing in lexicographic order. -/
theorem visited_chain (v : List Int) :
    List.Chain' (fun a b => lexLtB a b = true) (visited v) :=
  visited_chain_aux (rank v) v le_rfl

theorem visited_mem_perm_aux : ∀ (r : Nat) (v c : List Int), rank v ≤ r →
    c ∈ visited v → c.Perm v
  | 0, v, c, h, hc => by
    rw [visited_none (nextPerm_none_of_rank_zero (Nat.le_zero.mp h))] at hc
    rcases List.mem_singleton.mp hc with rfl
    exact List.Perm.refl c
  | r + 1, v, c, h, hc => by
    cases hn : nextPerm v with
    | none =>
      rw [visited_none hn] at hc
      rcases List.mem_singleton.mp hc with rfl
      exact List.Perm.refl c
    | some v' =>
      rw [visited_some hn] at hc
      have hrv : rank v' < rank v := rank_next_lt hn
      rcases List.mem_cons.mp hc with rfl | hc'
      · exact List.Perm.refl c
      · exact (visited_mem_perm_aux r v' c (by omega) hc').trans (nextPerm_some_perm hn)

/-- Every state in the do-while trace is a rearrangement of the start state. -/
theorem visited_mem_perm {v c : List Int} (hc : c ∈ visited v) : c.Perm v :=
  visited_mem_perm_aux (rank v) v c le_rfl hc

theorem visited_complete_aux : ∀ (r : Nat) (v c : List Int), rank v ≤ r →
    c.Perm v → lexLtB c v = false → c ∈ visited v
  | 0, v, c, h, hcp, hcv => by
    have hn : nextPerm v = none := nextPerm_none_of_rank_zero (Nat.le_zero.mp h)
    rw [visited_none hn]
    have hvc : lexLtB v c = false := desc_lex_max (nextPerm_none_iff.mp hn) hcp
    rw [lexLtB_total hcv hvc]
    simp
  | r + 1, v, c, h, hcp, hcv => by
    cases hn : nextPerm v with
    | none =>
      rw [visited_none hn]
      have hvc : lexLtB v c = false := desc_lex_max (nextPerm_none_iff.mp hn) hcp
      rw [lexLtB_total hcv hvc]
      simp
    | some v' =>
      rw [visited_some hn]
      by_cases hceq : c = v
      · rw [hceq]; simp
      · have hvc : lexLtB v c = true := by
          cases hg : lexLtB v c with
          | true => rfl
          | false => exact absurd (lexLtB_total hg hcv).symm hceq
        have hcv' : lexLtB c v' = false := nextPerm_min hn hcp hvc
        have hcp' : c.Perm v' := hcp.trans (nextPerm_some_perm hn).symm
        have hrv : rank v' < rank v := rank_next_lt hn
        exact List.mem_cons_of_mem v
          (visited_complete_aux r v' c (by omega) hcp' hcv')

/-- Completeness of the do-while trace: every rearrangement of `v` not lying
strictly below `v` is visited. -/
theorem visited_complete {v c : List Int} (hcp : c.Perm v) (hcv : lexLtB c v = false) :
    c ∈ visited v :=
  visited_complete_aux (rank v) v c le_rfl hcp hcv

theorem visited_getLast_aux : ∀ (r : Nat) (v : List Int), rank v ≤ r →
    ∃ w, (visited v).getLast? = some w ∧ Desc w ∧ w.Perm v
  | 0, v, h => by
    have hn : nextPerm v = none := nextPerm_none_of_rank_zero (Nat.le_zero.mp h)
    rw [visited_none hn]
    exact ⟨v, rfl, nextPerm_none_iff.mp hn, List.Perm.refl v⟩
  | r + 1, v, h => by
    cases hn : nextPerm v with
    | none =>
      rw [visited_none hn]
      exact ⟨v, rfl, nextPerm_none_iff.mp hn, List.Perm.refl v⟩
    | some v' =>
      rw [visited_some hn]
      have hrv : rank v' < rank v := rank_next_lt hn
      obtain ⟨w, hw, hwd, hwp⟩ := visited_getLast_aux r v' (by omega)
      refine ⟨w, ?_, hwd, hwp.trans (nextPerm_some_perm hn)⟩
      cases hvl : visited v' with
      | nil => exact absurd hvl (visited_ne_nil v')
      | cons a l =>
        rw [hvl] at hw
        rw [List.getLast?_cons_cons]
        exact hw

theorem visited_pairwise (v : List Int) :
    List.Pairwise (fun a b => lexLtB a b = true) (visited v) := by
  haveI : IsTrans (List Int) (fun a b => lexLtB a b = true) :=
    ⟨fun _ _ _ hab hbc => lexLtB_trans hab hbc⟩
  exact List.chain'_iff_pairwise.mp (visited_chain v)

theorem visited_nodup (v : List Int) : (visited v).Nodup := by
  refine (visited_pairwise v).imp ?_
  intro a b hab heq
  subst heq
  rw [lexLtB_irrefl] at hab
  exact Bool.noConfusion hab

/-- Started from a sorted duplicate-free vector, the do-while loop visits
exactly the rearrangements of that vector, each exactly once. -/
theorem visited_perm_permutations {v : List Int} (hasc : List.Pairwise (· ≤ ·) v)
    (hnd : v.Nodup) : (visited v).Perm v.permutations := by
  have h1 : visited v ⊆ v.permutations := fun c hc =>
    List.mem_permutations.mpr (visited_mem_perm hc)
  have h2 : v.permutations ⊆ visited v := fun c hc =>
    visited_complete (List.mem_permutations.mp hc)
      (asc_lex_min hasc (List.mem_permutations.mp hc))
  exact ((visited_nodup v).subperm h1).antisymm ((List.nodup_permutations v hnd).subperm h2)

theorem visited_length {v : List Int} (hasc : List.Pairwise (· ≤ ·) v)
    (hnd : v.Nodup) : (visited v).length = Nat.factorial v.length := by
  rw [(visited_perm_permutations hasc hnd).length_eq, List.length_permutations]

/-- One run of the inner do-while loop
`do { if (i == n) data.push_back(v); Rcpp::checkUserInterrupt(); }
while (std::next_permutation(v.begin(), v.end()));`
starting from working vector `v`.  `record` is the (pass-invariant) value of
the test `i == n`, `k` counts interrupt checks performed so far, `intr` is
the interrupt oracle and `fuel` bounds the remaining iterations (`rank v`
always suffices, see `permCycleCAux_congr`).  On normal exit it returns the
new check counter, the extended `data`, and the final working vector, which
`std::next_permutation` has just reset to ascending order by reversing the
descending sequence.  An observed interrupt throws out of the function,
discarding all locals: `.error .cancelled`. -/
def permCycleCAux (intr : Nat → Bool) (record : Bool) :
    Nat → Nat → List (List Int) → List Int →
      Except ErrKind (Nat × List (List Int) × List Int)
  | 0, k, data, v =>
    let d := if record then data ++ [v] else data
    if intr k then .error .cancelled
    else
      match nextPerm v with
      | none => .ok (k + 1, d, v.reverse)
      | some v' => .ok (k + 1, d, v')
  | fuel + 1, k, data, v =>
    let d := if record then data ++ [v] else data
    if intr k then .error .cancelled
    else
      match nextPerm v with
      | none => .ok (k + 1, d, v.reverse)
      | some v' => permCycleCAux intr record fuel (k + 1) d v'

/-- The inner do-while loop with the sufficient iteration bound. -/
def permCycleC (intr : Nat → Bool) (record : Bool) (k : Nat)
    (data : List (List Int)) (v : List Int) :
    Except ErrKind (Nat × List (List Int) × List Int) :=
  permCycleCAux intr record (rank v) k data v

/-- The outer loop `for (int i = 1; i <= n; i++) { v.push_back(i); <do-while> }`.
`fuel` bounds the remaining passes (`(n + 1 - i).toNat` suffices).  The test
`i == n` is constant throughout a pass, so it is evaluated once and handed
to the inner loop as its recording flag. -/
def permOuterAux (intr : Nat → Bool) (n : Int) :
    Nat → Int → Nat → List Int → List (List Int) →
      Except ErrKind (Nat × List (List Int))
  | 0, _, k, _, data => .ok (k, data)
  | fuel + 1, i, k, v, data =>
    if i ≤ n then
      match permCycleC intr (decide (i = n)) k data (v ++ [i]) with
      | .error e => .error e
      | .ok (k', data', v') => permOuterAux intr n fuel (i + 1) k' v' data'
    else .ok (k, data)

/-- Bounds-checked sequential read of the entries `r[0], .., r[cols-1]` of one
recorded row, modelling the inner copy loop
`for (j = 0; j < data[0].size(); j++) output(i, j) = data[i][j];`
(an index past the end of `r` is an out-of-bounds read). -/
def readCells : List Int → Nat → Option (List Int)
  | _, 0 => some []
  | [], _ + 1 => none
  | x :: xs, cols + 1 =>
    match readCells xs cols with
    | none => none
    | some rest => some (x :: rest)

/-- Bounds-checked read of `rows` rows of `cols` entries each, modelling the
outer copy loop `for (i = 0; i < data.size(); i++)`. -/
def readRows : List (List Int) → Nat → Nat → Option (List (List Int))
  | _, 0, _ => some []
  | [], _ + 1, _ => none
  | r :: rs, rows + 1, cols =>
    match readCells r cols, readRows rs rows cols with
    | some row, some rest => some (row :: rest)
    | _, _ => none

/-- `Rcpp::NumericMatrix output(data.size(), data[0].size());` followed by the
copy loops.  Reading `data[0]` of an empty `data` — which is what the source
does whenever the outer loop recorded nothing, i.e. for `n <= 0` — is an
out-of-bounds access, undefined behaviour in C++. -/
def buildMatrix (data : List (List Int)) : Except ErrKind (List (List Int)) :=
  match data with
  | [] => .error .outOfBounds
  | d0 :: _ =>
    match readRows data data.length d0.length with
    | some g => .ok g
    | none => .error .outOfBounds

/-- `Rcpp::NumericMatrix permutations(int n)` under interrupt oracle `intr`:
the outer loop starting at `i = 1` with empty working vector and empty
`data`, followed by the matrix construction. -/
def permutationsW (intr : Nat → Bool) (n : Int) : Except ErrKind (List (List Int)) :=
  match permOuterAux intr n n.toNat 1 0 [] [] with
  | .error e => .error e
  | .ok (_, data) => buildMatrix data

/-- `permutations(n)` with no interrupt request pending. -/
def permutations (n : Int) : Except ErrKind (List (List Int)) :=
  permutationsW (fun _ => false) n

/-- The ascending sequence `[1, 2, .., n]` of `Int` values — the contents of
the working vector `v` after the outer loop has pushed `1, .., n`. -/
def ascListI (n : Int) : List Int := (List.range n.toNat).map fun k : Nat => (k : Int) + 1

/-- The accumulator scan of `std::max_element`: keep the current maximum,
replacing it only when a strictly greater element appears
(`if (*largest < *it) largest = it;`). -/
def maxElemAcc (b : ℚ) : List ℚ → ℚ
  | [] => b
  | x :: xs => maxElemAcc (if b < x then x else b) xs

/-- `float maxC(std::vector<float> v) { return *std::max_element(v.begin(), v.end()); }`
On a non-empty vector `std::max_element` returns an iterator to the first
maximal element, which is dereferenced and returned.  On an empty vector it
returns `v.end()`, whose dereference is undefined behaviour, modelled as
`.error .outOfBounds`. -/
def maxC (v : List ℚ) : Except ErrKind ℚ :=
  match v with
  | [] => .error .outOfBounds
  | x :: xs => .ok (maxElemAcc x xs)

deriving instance DecidableEq for Except

example : permutations 1 = .ok [[1]] := by decide
example : permutations 2 = .ok [[1, 2], [2, 1]] := by decide
example : permutations 0 = .error .outOfBounds := by decide
example : maxC [3.0, 1.5, 9.2, -4.0] = .ok 9.2 := by norm_num [maxC, maxElemAcc]

theorem permCycleCAux_intr (intr : Nat → Bool) (record : Bool) (fuel k : Nat)
    (data : List (List Int)) (v : List Int) (hintr : intr k = true) :
    permCycleCAux intr record fuel k data v = .error .cancelled := by
  cases fuel <;> simp [permCycleCAux, hintr]

theorem permCycleCAux_none (intr : Nat → Bool) (record : Bool) (fuel k : Nat)
    (data : List (List Int)) {v : List Int} (hn : nextPerm v = none)
    (hintr : intr k = false) :
    permCycleCAux intr record fuel k data v
      = .ok (k + 1, (if record then data ++ [v] else data), v.reverse) := by
  cases fuel <;> simp [permCycleCAux, hn, hintr]

theorem permCycleCAux_succ_some (intr : Nat → Bool) (record : Bool) (fuel k : Nat)
    (data : List (List Int)) {v v' : List Int} (hn : nextPerm v = some v')
    (hintr : intr k = false) :
    permCycleCAux intr record (fuel + 1) k data v
      = permCycleCAux intr record fuel (k + 1) (if record then data ++ [v] else data) v' := by
  simp [permCycleCAux, hn, hintr]

/-- A pure (never-interrupted) run of the inner do-while loop: it performs one
interrupt check per visited state, appends exactly the visited states to
`data` when recording, and leaves the working vector sorted ascending (a
rearrangement of the start state). -/
theorem permCycleCAux_pure : ∀ (fuel : Nat) (record : Bool) (k : Nat)
    (data : List (List Int)) (v : List Int), rank v ≤ fuel →
    ∃ vfin, permCycleCAux (fun _ => false) record fuel k data v
        = .ok (k + (visited v).length, (if record then data ++ visited v else data), vfin)
      ∧ vfin.Perm v ∧ List.Pairwise (· ≤ ·) vfin
  | fuel, record, k, data, v, h => by
    cases hn : nextPerm v with
    | none =>
      refine ⟨v.reverse, ?_, v.reverse_perm, ?_⟩
      · rw [visited_none hn, permCycleCAux_none _ _ _ _ _ hn rfl]
        simp
      · rw [List.pairwise_reverse]
        exact nextPerm_none_iff.mp hn
    | some v' =>
      have hrv : rank v' < rank v := rank_next_lt hn
      cases fuel with
      | zero => omega
      | succ fuel =>
        obtain ⟨vfin, hrun, hperm, hpair⟩ :=
          permCycleCAux_pure fuel record (k + 1)
            (if record then data ++ [v] else data) v' (by omega)
        refine ⟨vfin, ?_, hperm.trans (nextPerm_some_perm hn), hpair⟩
        rw [permCycleCAux_succ_some _ _ _ _ _ hn rfl, hrun, visited_some hn]
        have h1 : k + 1 + (visited v').length = k + ((visited v').length + 1) := by omega
        cases record with
        | false => simp [h1]
        | true => simp [h1, List.append_assoc]

/-- An arbitrarily-interrupted run of the inner loop either observes its
interrupt — discarding all local state, `.error .cancelled` — or returns
exactly what the never-interrupted run returns. -/
theorem permCycleCAux_cases : ∀ (fuel : Nat) (intr : Nat → Bool) (record : Bool)
    (k : Nat) (data : List (List Int)) (v : List Int),
    permCycleCAux intr record fuel k data v = .error .cancelled ∨
    permCycleCAux intr record fuel k data v
      = permCycleCAux (fun _ => false) record fuel k data v
  | fuel, intr, record, k, data, v => by
    cases hintr : intr k with
    | true => exact Or.inl (permCycleCAux_intr _ _ _ _ _ _ hintr)
    | false =>
      cases hn : nextPerm v with
      | none =>
        right
        rw [permCycleCAux_none _ _ _ _ _ hn hintr, permCycleCAux_none _ _ _ _ _ hn rfl]
      | some v' =>
        cases fuel with
        | zero =>
          right
          simp [permCycleCAux, hn, hintr]
        | succ fuel =>
          rw [permCycleCAux_succ_some _ _ _ _ _ hn hintr,
            permCycleCAux_succ_some _ _ _ _ _ hn rfl]
          exact permCycleCAux_cases fuel intr record (k + 1) _ v'

theorem ascListI_length (n : Int) : (ascListI n).length = n.toNat := by
  simp [ascListI]

theorem ascListI_pairwise_lt (n : Int) : List.Pairwise (· < ·) (ascListI n) := by
  unfold ascListI
  refine List.pairwise_map.mpr ?_
  refine (List.pairwise_lt_range n.toNat).imp ?_
  intro a b hab
  omega

theorem ascListI_pairwise_le (n : Int) : List.Pairwise (· ≤ ·) (ascListI n) :=
  (ascListI_pairwise_lt n).imp le_of_lt

theorem ascListI_nodup (n : Int) : (ascListI n).Nodup :=
  (ascListI_pairwise_lt n).imp ne_of_lt

theorem ascListI_append {i : Int} (h : 1 ≤ i) :
    ascListI (i - 1) ++ [i] = ascListI i := by
  unfold ascListI
  have h2 : i.toNat = (i - 1).toNat + 1 := by omega
  rw [h2, List.range_succ, List.map_append, List.map_singleton]
  have h3 : (((i - 1).toNat : Int)) + 1 = i := by omega
  rw [h3]

theorem sum_Icc_succ_bot {a b : Nat} (h : a ≤ b) (f : Nat → Nat) :
    ∑ j ∈ Finset.Icc a b, f j = f a + ∑ j ∈ Finset.Icc (a + 1) b, f j := by
  have hins : Finset.Icc a b = insert a (Finset.Icc (a + 1) b) := by
    ext x
    simp only [Finset.mem_Icc, Finset.mem_insert]
    omega
  rw [hins, Finset.sum_insert (by simp only [Finset.mem_Icc]; omega)]

/-- A pure run of the outer loop, from pass `i` with working vector `[1..i-1]`:
it performs one interrupt check per inner iteration — `j!` of them in pass `j`,
since pass `j` cycles through all rearrangements of `[1..j]` — and appends to
`data` exactly the trace of the recording pass `i == n` (nothing when the
loop body never runs a recording pass, i.e. when `i > n`). -/
theorem permOuterAux_pure : ∀ (fuel : Nat) (n i : Int) (k : Nat) (data : List (List Int)),
    1 ≤ i → fuel = (n + 1 - i).toNat →
    permOuterAux (fun _ => false) n fuel i k (ascListI (i - 1)) data
      = .ok (k + ∑ j ∈ Finset.Icc i.toNat n.toNat, Nat.factorial j,
          data ++ (if i ≤ n then visited (ascListI n) else []))
  | 0, n, i, k, data, hi, hfuel => by
    have hin : ¬ i ≤ n := by omega
    have hicc : Finset.Icc i.toNat n.toNat = ∅ := Finset.Icc_eq_empty_of_lt (by omega)
    simp [permOuterAux, hin, hicc]
  | fuel + 1, n, i, k, data, hi, hfuel => by
    have hin : i ≤ n := by omega
    have hpush : ascListI (i - 1) ++ [i] = ascListI i := ascListI_append hi
    obtain ⟨vfin, hrun, hperm, hpair⟩ :=
      permCycleCAux_pure (rank (ascListI i)) (decide (i = n)) k data (ascListI i) le_rfl
    have hvfin : vfin = ascListI i :=
      List.eq_of_perm_of_sorted hperm hpair (ascListI_pairwise_le i)
    have hlen : (visited (ascListI i)).length = Nat.factorial i.toNat := by
      rw [visited_length (ascListI_pairwise_le i) (ascListI_nodup i), ascListI_length]
    subst hvfin
    have hstep : permOuterAux (fun _ => false) n (fuel + 1) i k (ascListI (i - 1)) data
        = permOuterAux (fun _ => false) n fuel (i + 1) (k + Nat.factorial i.toNat)
            (ascListI i)
            (if decide (i = n) = true then data ++ visited (ascListI i) else data) := by
      simp only [permOuterAux, if_pos hin, hpush, permCycleC, hrun, hlen]
    rw [hstep]
    have hi1 : ascListI i = ascListI ((i + 1) - 1) := by
      have h4 : (i + 1) - 1 = i := by omega
      rw [h4]
    rw [hi1, permOuterAux_pure fuel n (i + 1) (k + Nat.factorial i.toNat) _
      (by omega) (by omega)]
    have hnat : (i + 1).toNat = i.toNat + 1 := by omega
    have hsum : ∑ j ∈ Finset.Icc i.toNat n.toNat, Nat.factorial j
        = Nat.factorial i.toNat + ∑ j ∈ Finset.Icc (i.toNat + 1) n.toNat, Nat.factorial j :=
      sum_Icc_succ_bot (by omega) _
    have harith : k + Nat.factorial i.toNat
          + ∑ j ∈ Finset.Icc (i.toNat + 1) n.toNat, Nat.factorial j
        = k + ∑ j ∈ Finset.Icc i.toNat n.toNat, Nat.factorial j := by
      omega
    by_cases hieq : i = n
    · subst hieq
      have h5 : ¬ i + 1 ≤ i := by omega
      simp only [decide_eq_true_eq, eq_self_iff_true, if_true, if_pos hin, if_neg h5,
        hnat, List.append_nil]
      rw [← hi1, harith]
    · have h5 : i + 1 ≤ n := by omega
      simp only [decide_eq_true_eq, if_neg hieq, if_pos hin, if_pos h5, hnat]
      rw [harith]

/-- An arbitrarily-interrupted run of the whole outer loop either reports
`.error .cancelled` or returns exactly what the never-interrupted run
returns. -/
theorem permOuterAux_cases : ∀ (fuel : Nat) (intr : Nat → Bool) (n i : Int) (k : Nat)
    (v : List Int) (data : List (List Int)),
    permOuterAux intr n fuel i k v data = .error .cancelled ∨
    permOuterAux intr n fuel i k v data = permOuterAux (fun _ => false) n fuel i k v data
  | 0, _, _, _, _, _, _ => Or.inr rfl
  | fuel + 1, intr, n, i, k, v, data => by
    by_cases hin : i ≤ n
    · rcases permCycleCAux_cases (rank (v ++ [i])) intr (decide (i = n)) k data (v ++ [i])
        with hc | hc
      · left
        simp [permOuterAux, if_pos hin, permCycleC, hc]
      · obtain ⟨vfin, hrun, _, _⟩ :=
          permCycleCAux_pure (rank (v ++ [i])) (decide (i = n)) k data (v ++ [i]) le_rfl
        rcases permOuterAux_cases fuel intr n (i + 1) (k + (visited (v ++ [i])).length)
            vfin (if decide (i = n) = true then data ++ visited (v ++ [i]) else data)
          with h2 | h2
        · left
          simp only [decide_eq_true_eq] at h2
          simp [permOuterAux, if_pos hin, permCycleC, hc, hrun, h2]
        · right
          simp only [decide_eq_true_eq] at h2
          simp [permOuterAux, if_pos hin, permCycleC, hc, hrun, h2]
    · right
      simp [permOuterAux, hin]

theorem readCells_self : ∀ r : List Int, readCells r r.length = some r
  | [] => rfl
  | x :: xs => by
    rw [List.length_cons]
    simp [readCells, readCells_self xs]

theorem readRows_all : ∀ (data : List (List Int)) (cols : Nat),
    (∀ r ∈ data, r.length = cols) → readRows data data.length cols = some data
  | [], _, _ => rfl
  | r :: rs, cols, h => by
    have hr : r.length = cols := h r (List.mem_cons_self r rs)
    have ih := readRows_all rs cols fun x hx => h x (List.mem_cons_of_mem r hx)
    have hcells : readCells r cols = some r := by
      rw [← hr]
      exact readCells_self r
    rw [List.length_cons]
    simp [readRows, hcells, ih]

theorem buildMatrix_ok {data : List (List Int)} {d0 : List Int} {rest : List (List Int)}
    (hdata : data = d0 :: rest) (hrows : ∀ r ∈ data, r.length = d0.length) :
    buildMatrix data = .ok data := by
  subst hdata
  have hrr := readRows_all (d0 :: rest) d0.length hrows
  rw [List.length_cons] at hrr
  simp [buildMatrix, hrr]

/-- For `n >= 1`, `permutations(n)` succeeds and its grid is exactly the
trace of do-while states of the final (recording) pass, which starts at
`[1, .., n]`. -/
theorem permutations_ok {n : Int} (h : 1 ≤ n) :
    permutations n = .ok (visited (ascListI n)) := by
  have hasc0 : ascListI (1 - 1) = ([] : List Int) := rfl
  have houter := permOuterAux_pure n.toNat n 1 0 [] (by omega) (by omega)
  rw [hasc0] at houter
  unfold permutations permutationsW
  rw [houter]
  simp only [if_pos h, List.nil_append]
  obtain ⟨rest, hvis⟩ : ∃ rest, visited (ascListI n) = ascListI n :: rest := by
    cases hv : visited (ascListI n) with
    | nil => exact absurd hv (visited_ne_nil _)
    | cons a l =>
      have hh := visited_head (ascListI n)
      rw [hv, List.head?_cons] at hh
      injection hh with h2
      exact ⟨l, by rw [h2]⟩
  have hrows : ∀ r ∈ visited (ascListI n), r.length = (ascListI n).length :=
    fun r hr => (visited_mem_perm hr).length_eq
  exact buildMatrix_ok hvis hrows

/-- For `n <= 0` the outer loop never runs, `data` stays empty, and the
matrix construction dereferences `data[0]` out of bounds. -/
theorem permutations_nonpos {n : Int} (h : n ≤ 0) :
    permutations n = .error .outOfBounds := by
  have hfuel : n.toNat = 0 := by omega
  unfold permutations permutationsW
  rw [hfuel]
  simp [permOuterAux, buildMatrix]

theorem permutationsW_cases (intr : Nat → Bool) (n : Int) :
    permutationsW intr n = .error .cancelled ∨ permutationsW intr n = permutations n := by
  rcases permOuterAux_cases n.toNat intr n 1 0 [] [] with h | h
  · left
    unfold permutationsW
    rw [h]
  · right
    unfold permutations permutationsW
    rw [h]

/-- Two strictly lexicographically sorted lists with the same elements are
equal. -/
theorem eq_of_perm_of_lex_pairwise {l1 l2 : List (List Int)} (hp : l1.Perm l2)
    (h1 : List.Pairwise (fun a b => lexLtB a b = true) l1)
    (h2 : List.Pairwise (fun a b => lexLtB a b = true) l2) : l1 = l2 := by
  haveI : IsAntisymm (List Int) (fun a b => lexLtB a b = true) := by
    constructor
    intro a b hab hba
    rw [lexLtB_asymm hab] at hba
    exact Bool.noConfusion hba
  exact List.eq_of_perm_of_sorted hp h1 h2

/-- Modelled from the spec: "skip the dead earlier outer iterations entirely
and simply enumerate permutations of the complete sequence 1..n directly",
with the guaranteed "strict lexicographic order over the tuple of values,
ascending" — i.e. every rearrangement of `[1, .., n]`, sorted
lexicographically, fed to the same matrix construction.  For `n <= 0` the
outer loop provides no recording pass, so the grid input stays empty. -/
def permutationsDirect (n : Int) : Except ErrKind (List (List Int)) :=
  buildMatrix (if 1 ≤ n then
    List.mergeSort (ascListI n).permutations' (fun a b => ! lexLtB b a)
  else [])

/-- The do-while trace from `[1, .., n]` *is* the lexicographically sorted
enumeration of all permutations of `[1, .., n]`. -/
theorem visited_eq_sorted_permutations (n : Int) :
    List.mergeSort (ascListI n).permutations' (fun a b => ! lexLtB b a)
      = visited (ascListI n) := by
  set le : List Int → List Int → Bool := fun a b => ! lexLtB b a with hle
  set S := List.mergeSort (ascListI n).permutations' le with hS
  have hperm : S.Perm (visited (ascListI n)) := by
    refine (List.mergeSort_perm _ le).trans ?_
    refine ((List.permutations_perm_permutations' (ascListI n)).symm).trans ?_
    exact (visited_perm_permutations (ascListI_pairwise_le n) (ascListI_nodup n)).symm
  have hnodup : S.Nodup := hperm.symm.nodup (visited_nodup _)
  have hsorted : S.Pairwise fun a b => le a b = true := by
    refine List.sorted_mergeSort ?_ ?_ _
    · intro a b c hab hbc
      simp only [hle, Bool.not_eq_true'] at hab hbc ⊢
      cases hlex : lexLtB c a with
      | false => rfl
      | true =>
        rcases Bool.eq_false_or_eq_true (lexLtB b c) with h1 | h1
        · exact Bool.noConfusion (hab ▸ lexLtB_trans h1 hlex)
        · have hbceq : b = c := lexLtB_total h1 hbc
          rw [← hbceq] at hlex
          exact Bool.noConfusion (hab ▸ hlex)
    · intro a b
      simp only [hle, Bool.not_eq_true']
      cases hab : lexLtB b a with
      | false => simp
      | true => simp [lexLtB_asymm hab]
  have hstrict : S.Pairwise fun a b => lexLtB a b = true := by
    refine (hsorted.and hnodup).imp ?_
    intro a b hab
    obtain ⟨h1, h2⟩ := hab
    simp only [hle, Bool.not_eq_true'] at h1
    cases h3 : lexLtB a b with
    | true => rfl
    | false => exact absurd (lexLtB_total h3 h1) h2
  exact eq_of_perm_of_lex_pairwise hperm hstrict (visited_pairwise _)

theorem maxElemAcc_le (b : ℚ) : ∀ l : List ℚ, b ≤ maxElemAcc b l
  | [] => le_refl b
  | x :: xs => by
    unfold maxElemAcc
    by_cases h : b < x
    · rw [if_pos h]
      exact (le_of_lt h).trans (maxElemAcc_le x xs)
    · rw [if_neg h]
      exact maxElemAcc_le b xs

theorem maxElemAcc_mem (b : ℚ) : ∀ l : List ℚ, maxElemAcc b l = b ∨ maxElemAcc b l ∈ l
  | [] => Or.inl rfl
  | x :: xs => by
    unfold maxElemAcc
    by_cases h : b < x
    · rw [if_pos h]
      rcases maxElemAcc_mem x xs with h2 | h2
      · exact Or.inr (by rw [h2]; exact List.mem_cons_self x xs)
      · exact Or.inr (List.mem_cons_of_mem x h2)
    · rw [if_neg h]
      rcases maxElemAcc_mem b xs with h2 | h2
      · exact Or.inl h2
      · exact Or.inr (List.mem_cons_of_mem x h2)

theorem maxElemAcc_ge (b : ℚ) : ∀ (l : List ℚ), ∀ x ∈ l, x ≤ maxElemAcc b l
  | [], x, hx => absurd hx (by simp)
  | y :: ys, x, hx => by
    unfold maxElemAcc
    rcases List.mem_cons.mp hx with rfl | hx'
    · by_cases h : b < x
      · rw [if_pos h]
        exact maxElemAcc_le x ys
      · rw [if_neg h]
        exact (not_lt.mp h).trans (maxElemAcc_le b ys)
    · by_cases h : b < y
      · rw [if_pos h]
        exact maxElemAcc_ge y ys x hx'
      · rw [if_neg h]
        exact maxElemAcc_ge b ys x hx'

theorem buildMatrix_visited (n : Int) :
    buildMatrix (visited (ascListI n)) = .ok (visited (ascListI n)) := by
  obtain ⟨rest, hvis⟩ : ∃ rest, visited (ascListI n) = ascListI n :: rest := by
    cases hv : visited (ascListI n) with
    | nil => exact absurd hv (visited_ne_nil _)
    | cons a l =>
      have hh := visited_head (ascListI n)
      rw [hv, List.head?_cons] at hh
      injection hh with h2
      exact ⟨l, by rw [h2]⟩
  exact buildMatrix_ok hvis fun r hr => (visited_mem_perm hr).length_eq

/-- C1: for every integer `n ≥ 1`, `permutations(n)` returns a grid with
exactly `n!` rows and `n` columns, in which every row is a permutation of
`{1, .., n}` (i.e. a rearrangement of `[1, .., n]`), no two rows are equal,
and every one of the `n!` distinct permutations appears as some row. -/
theorem C1_permutations_shape (n : Int) (h : 1 ≤ n) :
    ∃ g, permutations n = .ok g ∧
      g.length = Nat.factorial n.toNat ∧
      (∀ r ∈ g, r.length = n.toNat) ∧
      (∀ r ∈ g, r.Perm (ascListI n)) ∧
      g.Nodup ∧
      (∀ p : List Int, p.Perm (ascListI n) → p ∈ g) := by
  refine ⟨visited (ascListI n), permutations_ok h, ?_, ?_,
    fun r hr => visited_mem_perm hr, visited_nodup _,
    fun p hp => visited_complete hp (asc_lex_min (ascListI_pairwise_le n) hp)⟩
  · rw [visited_length (ascListI_pairwise_le n) (ascListI_nodup n), ascListI_length]
  · intro r hr
    rw [(visited_mem_perm hr).length_eq, ascListI_length]

theorem C1_permutations_shape_witness :
    (1 : Int) ≤ 3 ∧
    ∃ g, permutations 3 = .ok g ∧
      g.length = Nat.factorial (3 : Int).toNat ∧
      (∀ r ∈ g, r.length = (3 : Int).toNat) ∧
      (∀ r ∈ g, r.Perm (ascListI 3)) ∧
      g.Nodup ∧
      (∀ p : List Int, p.Perm (ascListI 3) → p ∈ g) :=
  ⟨by decide, C1_permutations_shape 3 (by decide)⟩

/-- C2: for every integer `n ≥ 1` the rows of `permutations(n)` are in
strictly ascending lexicographic order, the first row is `[1, 2, .., n]`,
the last row is `[n, n-1, .., 1]`, and in particular `permutations(3)` is
exactly the six rows `[[1,2,3],[1,3,2],[2,1,3],[2,3,1],[3,1,2],[3,2,1]]`
in that order. -/
theorem C2_permutations_order :
    (∀ n : Int, 1 ≤ n → ∃ g, permutations n = .ok g ∧
      List.Chain' (fun a b => lexLtB a b = true) g ∧
      g.head? = some (ascListI n) ∧
      g.getLast? = some (ascListI n).reverse) ∧
    permutations 3 = .ok [[1, 2, 3], [1, 3, 2], [2, 1, 3], [2, 3, 1], [3, 1, 2], [3, 2, 1]] := by
  constructor
  · intro n hn
    refine ⟨visited (ascListI n), permutations_ok hn, visited_chain _, visited_head _, ?_⟩
    obtain ⟨w, hw, hwd, hwp⟩ := visited_getLast_aux (rank (ascListI n)) _ le_rfl
    have hrev : w = (ascListI n).reverse := by
      haveI : IsAntisymm Int fun a b => b ≤ a := ⟨fun a b h1 h2 => le_antisymm h2 h1⟩
      refine List.eq_of_perm_of_sorted (hwp.trans (ascListI n).reverse_perm.symm) hwd ?_
      exact List.pairwise_reverse.mpr (ascListI_pairwise_le n)
    rw [hw, hrev]
  · decide

theorem C2_permutations_order_witness :
    (1 : Int) ≤ 2 ∧ ∃ g, permutations 2 = .ok g ∧
      List.Chain' (fun a b => lexLtB a b = true) g ∧
      g.head? = some (ascListI 2) ∧
      g.getLast? = some (ascListI 2).reverse :=
  ⟨by decide, C2_permutations_order.1 2 (by decide)⟩

/-- C3 [against the code]: for `n = 0` and `n = -1` the source does *not*
fail with `InvalidArgument`: the outer loop records nothing and the matrix
construction reads `data[0]` of an empty vector — an out-of-bounds access,
i.e. undefined behaviour, modelled as `.error .outOfBounds`. -/
theorem C3_nonpositive_out_of_bounds :
    permutations 0 = .error .outOfBounds ∧
    permutations (-1) = .error .outOfBounds ∧
    ErrKind.outOfBounds ≠ ErrKind.invalidArgument := by
  refine ⟨by decide, by decide, by decide⟩

/-- C4 [against the code]: `maxC` on the empty sequence does *not* fail with
`InvalidArgument`: it dereferences the end iterator returned by
`std::max_element` — undefined behaviour, modelled as `.error .outOfBounds`. -/
theorem C4_maxC_empty_out_of_bounds :
    maxC [] = .error .outOfBounds ∧
    ErrKind.outOfBounds ≠ ErrKind.invalidArgument := by
  refine ⟨by decide, by decide⟩

/-- C5 counterexample: at input `n = 0` (no cancellation involved),
`permutations` neither returns a complete result nor fails with a kind from
the spec's taxonomy `InvalidArgument / ResourceExhausted / Cancelled`: it
performs an out-of-bounds read of `data[0]`, undefined behaviour. -/
theorem C5_counterexample :
    permutations 0 = .error .outOfBounds ∧
    ErrKind.outOfBounds ≠ ErrKind.invalidArgument ∧
    ErrKind.outOfBounds ≠ ErrKind.resourceExhausted ∧
    ErrKind.outOfBounds ≠ ErrKind.cancelled := by
  refine ⟨by decide, by decide, by decide, by decide⟩

/-- C5 [amended to n ≥ 1 / non-empty input]: under any interrupt oracle,
`permutations(n)` with `n ≥ 1` returns either the complete `n! × n` grid or
`.error .cancelled` — never a partial or truncated grid — and `maxC` on a
non-empty sequence returns a value. -/
theorem C5_complete_or_cancelled :
    (∀ (intr : Nat → Bool) (n : Int), 1 ≤ n →
      (∃ g, permutationsW intr n = .ok g ∧ g.length = Nat.factorial n.toNat ∧
        ∀ r ∈ g, r.length = n.toNat) ∨
      permutationsW intr n = .error .cancelled) ∧
    (∀ v : List ℚ, v ≠ [] → ∃ q, maxC v = .ok q) := by
  constructor
  · intro intr n hn
    rcases permutationsW_cases intr n with hc | hc
    · exact Or.inr hc
    · left
      refine ⟨visited (ascListI n), ?_, ?_, ?_⟩
      · rw [hc]
        exact permutations_ok hn
      · rw [visited_length (ascListI_pairwise_le n) (ascListI_nodup n), ascListI_length]
      · intro r hr
        rw [(visited_mem_perm hr).length_eq, ascListI_length]
  · intro v hv
    match v, hv with
    | x :: xs, _ => exact ⟨maxElemAcc x xs, rfl⟩

theorem C5_complete_or_cancelled_witness :
    ((∃ g, permutationsW (fun _ => false) 1 = .ok g ∧
        g.length = Nat.factorial (1 : Int).toNat ∧
        ∀ r ∈ g, r.length = (1 : Int).toNat) ∨
      permutationsW (fun _ => false) 1 = .error .cancelled) ∧
    ∃ q, maxC [0] = .ok q :=
  ⟨C5_complete_or_cancelled.1 (fun _ => false) 1 (by decide),
    C5_complete_or_cancelled.2 [0] (by simp)⟩

/-- C6: the implemented algorithm — the outer loop over `i = 1..n` in which
only the `i == n` pass records — produces exactly the same output as directly
enumerating, in ascending lexicographic order, all permutations of the full
sequence `[1, .., n]`. -/
theorem C6_outer_loop_equiv_direct (n : Int) (h : 1 ≤ n) :
    permutations n = permutationsDirect n := by
  rw [permutations_ok h]
  unfold permutationsDirect
  rw [if_pos h, visited_eq_sorted_permutations, buildMatrix_visited]

theorem C6_outer_loop_equiv_direct_witness :
    (1 : Int) ≤ 3 ∧ permutations 3 = permutationsDirect 3 :=
  ⟨by decide, C6_outer_loop_equiv_direct 3 (by decide)⟩

/-- C7: for every non-empty sequence, `maxC` returns the greatest element of
the sequence (a member that bounds every member); in particular
`maxC [3.0, 1.5, 9.2, -4.0] = 9.2`. -/
theorem C7_maxC_greatest :
    (∀ v : List ℚ, v ≠ [] → ∃ m, maxC v = .ok m ∧ m ∈ v ∧ ∀ x ∈ v, x ≤ m) ∧
    maxC [3.0, 1.5, 9.2, -4.0] = .ok 9.2 := by
  constructor
  · intro v hv
    match v, hv with
    | x :: xs, _ =>
      refine ⟨maxElemAcc x xs, rfl, ?_, ?_⟩
      · rcases maxElemAcc_mem x xs with h2 | h2
        · rw [h2]
          exact List.mem_cons_self x xs
        · exact List.mem_cons_of_mem x h2
      · intro y hy
        rcases List.mem_cons.mp hy with rfl | hy'
        · exact maxElemAcc_le y xs
        · exact maxElemAcc_ge x xs y hy'
  · norm_num [maxC, maxElemAcc]

theorem C7_maxC_greatest_witness :
    ([3.0, 1.5, 9.2, -4.0] : List ℚ) ≠ [] ∧
    ∃ m, maxC [3.0, 1.5, 9.2, -4.0] = .ok m ∧ m ∈ ([3.0, 1.5, 9.2, -4.0] : List ℚ) ∧
      ∀ x ∈ ([3.0, 1.5, 9.2, -4.0] : List ℚ), x ≤ m :=
  ⟨by simp, C7_maxC_greatest.1 [3.0, 1.5, 9.2, -4.0] (by simp)⟩

/-- C8: for every `n ≥ 1` (and no cancellation) every container access in the
matrix-construction phase of `permutations` is in bounds: the recorded `data`
is non-empty when `data[0]` is read to size the output matrix, every recorded
row has exactly `data[0].size()` entries, and the bounds-checked copy of all
`data.size() × data[0].size()` entries succeeds, reproducing `data`. -/
theorem C8_accesses_in_bounds (n : Int) (h : 1 ≤ n) :
    ∃ K D d0 rest, permOuterAux (fun _ => false) n n.toNat 1 0 [] [] = .ok (K, D) ∧
      D = d0 :: rest ∧
      (∀ r ∈ D, r.length = d0.length) ∧
      readRows D D.length d0.length = some D ∧
      buildMatrix D = .ok D := by
  have hasc0 : ascListI (1 - 1) = ([] : List Int) := rfl
  have houter := permOuterAux_pure n.toNat n 1 0 [] (by omega) (by omega)
  rw [hasc0] at houter
  obtain ⟨rest, hvis⟩ : ∃ rest, visited (ascListI n) = ascListI n :: rest := by
    cases hv : visited (ascListI n) with
    | nil => exact absurd hv (visited_ne_nil _)
    | cons a l =>
      have hh := visited_head (ascListI n)
      rw [hv, List.head?_cons] at hh
      injection hh with h2
      exact ⟨l, by rw [h2]⟩
  have hrows : ∀ r ∈ visited (ascListI n), r.length = (ascListI n).length :=
    fun r hr => (visited_mem_perm hr).length_eq
  refine ⟨∑ j ∈ Finset.Icc (1 : Int).toNat n.toNat, Nat.factorial j,
    visited (ascListI n), ascListI n, rest, ?_, hvis, hrows, ?_, buildMatrix_visited n⟩
  · rw [houter, if_pos h]
    simp
  · have hrr := readRows_all (visited (ascListI n)) (ascListI n).length hrows
    exact hrr

theorem C8_accesses_in_bounds_witness :
    (1 : Int) ≤ 2 ∧
    ∃ K D d0 rest, permOuterAux (fun _ => false) 2 (2 : Int).toNat 1 0 [] [] = .ok (K, D) ∧
      D = d0 :: rest ∧
      (∀ r ∈ D, r.length = d0.length) ∧
      readRows D D.length d0.length = some D ∧
      buildMatrix D = .ok D :=
  ⟨by decide, C8_accesses_in_bounds 2 (by decide)⟩

/-- C9: the enumeration always terminates, with a precise iteration count:
the do-while pass over the working sequence `[1, .., i]` performs exactly
`i!` iterations (one interrupt check each) before `std::next_permutation`
returns the sequence to ascending order, and for every integer `n` —
including `n ≤ 0`, where no pass runs — the whole outer loop performs
exactly `∑ i in [1..n], i!` inner iterations in total. -/
theorem C9_iteration_count :
    (∀ i : Int, 1 ≤ i → (visited (ascListI i)).length = Nat.factorial i.toNat) ∧
    (∀ n : Int, ∃ D, permOuterAux (fun _ => false) n n.toNat 1 0 [] []
      = .ok (∑ j ∈ Finset.Icc 1 n.toNat, Nat.factorial j, D)) := by
  constructor
  · intro i _
    rw [visited_length (ascListI_pairwise_le i) (ascListI_nodup i), ascListI_length]
  · intro n
    have hasc0 : ascListI (1 - 1) = ([] : List Int) := rfl
    have houter := permOuterAux_pure n.toNat n 1 0 [] (by omega) (by omega)
    rw [hasc0] at houter
    simp only [List.nil_append, Nat.zero_add, Int.toNat_one] at houter
    exact ⟨if (1 : Int) ≤ n then visited (ascListI n) else [], houter⟩

theorem C9_iteration_count_witness :
    (1 : Int) ≤ 3 ∧ (visited (ascListI 3)).length = Nat.factorial (3 : Int).toNat :=
  ⟨by decide, C9_iteration_count.1 3 (by decide)⟩

/-- C10: both operations are deterministic and stateless.  The embedding is a
pure function of the call arguments — the source declares no globals, statics
or other cross-call state — so equal inputs give equal outputs; moreover any
two *completed* runs of `permutations` agree on the grid even under different
interrupt oracles, and `maxC` is a function of its input sequence. -/
theorem C10_deterministic :
    (∀ (f g : Nat → Bool) (n : Int) (a b : List (List Int)),
      permutationsW f n = .ok a → permutationsW g n = .ok b → a = b) ∧
    (∀ v w : List ℚ, v = w → maxC v = maxC w) := by
  constructor
  · intro f g n a b hf hg
    rcases permutationsW_cases f n with h | h
    · rw [h] at hf
      exact Except.noConfusion hf
    · rcases permutationsW_cases g n with h2 | h2
      · rw [h2] at hg
        exact Except.noConfusion hg
      · rw [h] at hf
        rw [h2, hf] at hg
        injection hg
  · intro v w h
    rw [h]

theorem C10_deterministic_witness :
    ([[1, 2], [2, 1]] : List (List Int)) = [[1, 2], [2, 1]] ∧
    maxC [2.5] = maxC [2.5] :=
  ⟨C10_deterministic.1 (fun _ => false) (fun k => decide (5 ≤ k)) 2
      [[1, 2], [2, 1]] [[1, 2], [2, 1]] (by decide) (by decide),
    C10_deterministic.2 [2.5] [2.5] rfl⟩
